import Mathlib

/-!
Verification development for `update_riot_itemset_ids.py`, a batch find-and-replace
utility over Riot item-set JSON files.  The Python source is shallowly embedded:

* JSON values are the inductive `Json` (JSON numbers are modelled as integers,
  which covers every identifier field the tool touches);
* Python dicts appearing as parsed JSON objects are association lists with
  unique keys in insertion order; `alookup` models `dict.get`, `setField`
  models `d[k] = v`, `ledgerIncr` models the nested `setdefault`/increment;
* the filesystem is a partial map from path strings to file contents, and the
  write/backup side effects of `process_file` are reified as a list of `FsOp`;
* the located files (`iter_itemset_json_files` plus `_champion_name_from_path`)
  are passed to the orchestrator as a list of (path, champion) pairs, champion
  being the first path segment below the root;
* `str.casefold` is modelled as ASCII lower-casing of code points, and Python's
  stable `sorted` as insertion sort (`sortLe`), both compared via code-point
  lexicographic order exactly as Python compares strings.
-/

/-- A parsed JSON value (`json.load` result).  Numbers are modelled as `Int`. -/
inductive Json where
  | null
  | bool (b : Bool)
  | num (n : Int)
  | str (s : String)
  | arr (xs : List Json)
  | obj (fields : List (String × Json))

/-- First-match lookup in an association list; models `dict.get` / `dict[k]`
on a parsed-JSON dict (whose keys are unique). -/
def alookup {α : Type} : List (String × α) → String → Option α
  | [], _ => none
  | (k, v) :: rest, key => if k = key then some v else alookup rest key

/-- Models Python `d[k] = v`: replace the value at an existing key in place,
or append the binding at the end (dict insertion-order semantics). -/
def setField {α : Type} : List (String × α) → String → α → List (String × α)
  | [], k, v => [(k, v)]
  | (k', v') :: rest, k, v =>
    if k' = k then (k, v) :: rest else (k', v') :: setField rest k v

mutual
/-- Python `repr` of a parsed JSON value (string-escaping inside nested
containers is not modelled; no identifier key ever has that shape). -/
def pyRepr : Json → String
  | .null => "None"
  | .bool true => "True"
  | .bool false => "False"
  | .num n => toString n
  | .str s => "'" ++ s ++ "'"
  | .arr xs => "[" ++ pyReprList xs ++ "]"
  | .obj fs => "\x7b" ++ pyReprFields fs ++ "\x7d"

/-- Comma-separated reprs of list elements. -/
def pyReprList : List Json → String
  | [] => ""
  | [x] => pyRepr x
  | x :: y :: xs => pyRepr x ++ ", " ++ pyReprList (y :: xs)

/-- Comma-separated `'key': value` reprs of dict entries. -/
def pyReprFields : List (String × Json) → String
  | [] => ""
  | [(k, v)] => "'" ++ k ++ "': " ++ pyRepr v
  | (k, v) :: f :: fs => "'" ++ k ++ "': " ++ pyRepr v ++ ", " ++ pyReprFields (f :: fs)
end

/-- Python `str(...)` applied to a parsed JSON value (`str(raw_id)` in the
source): identity on strings, `repr`-like elsewhere. -/
def pyStr : Json → String
  | .str s => s
  | v => pyRepr v

/-- `True` exactly on JSON objects (`isinstance(obj, dict)`). -/
def Json.isObj : Json → Bool
  | .obj _ => true
  | _ => false

/-- `True` exactly on JSON null (`raw_id is None`). -/
def Json.isNull : Json → Bool
  | .null => true
  | _ => false

/-- One entry of the embedded identifier table (dataclass `ItemInfo`). -/
structure ItemInfo where
  old_id : String
  new_id : String
  name_es : String
  name_en : String
deriving DecidableEq

/-- `EMBEDDED_ITEM_MAP`: old id → (old id, new id, ES name, EN name). -/
def EMBEDDED_ITEM_MAP : List (String × ItemInfo) := [
  ("2065", ⟨"2065", "322065", "Canción de batalla de Shurelya", "Shurelya's Battlesong"⟩),
  ("3002", ⟨"3002", "323002", "Marcasendas", "Trailblazer"⟩),
  ("3003", ⟨"3003", "323003", "Bastón del arcángel", "Archangel's Staff"⟩),
  ("3004", ⟨"3004", "323004", "Manamune", "Manamune"⟩),
  ("3050", ⟨"3050", "323050", "Convergencia de Zeke", "Zeke's Convergence"⟩),
  ("3075", ⟨"3075", "323075", "Malla de espinas", "Thornmail"⟩),
  ("3107", ⟨"3107", "323107", "Redención", "Redemption"⟩),
  ("3109", ⟨"3109", "323109", "Promesa de caballero", "Knight's Vow"⟩),
  ("3110", ⟨"3110", "323110", "Corazón de hielo", "Frozen Heart"⟩),
  ("3119", ⟨"3119", "323119", "Llegada del invierno", "Winter's Approach"⟩),
  ("3190", ⟨"3190", "323190", "Medallón de los Solari de Hierro", "Locket of the Iron Solari"⟩),
  ("3222", ⟨"3222", "323222", "Bendición de Mikael", "Mikael's Blessing"⟩),
  ("3504", ⟨"3504", "323504", "Incensario ardiente", "Ardent Censer"⟩),
  ("4005", ⟨"4005", "324005", "Mandato imperial", "Imperial Mandate"⟩),
  ("6616", ⟨"6616", "326616", "Bastón de aguas fluidas", "Staff of Flowing Water"⟩),
  ("6617", ⟨"6617", "326617", "Renovación de piedra lunar", "Moonstone Renewer"⟩),
  ("6620", ⟨"6620", "326620", "Ecos de Helia", "Echoes of Helia"⟩),
  ("6621", ⟨"6621", "326621", "Núcleo albar", "Dawncore"⟩),
  ("6657", ⟨"6657", "326657", "Vara de las edades", "Rod of Ages"⟩),
  ("8020", ⟨"8020", "328020", "Máscara abisal", "Abyssal Mask"⟩)]

/-- `build_maps()`: (old_id → new_id, old_id → ItemInfo). -/
def build_maps : List (String × String) × List (String × ItemInfo) :=
  (EMBEDDED_ITEM_MAP.map (fun kv => (kv.1, kv.2.new_id)), EMBEDDED_ITEM_MAP)

/-- The Change Ledger: champion → old id → replacement count, both levels in
dict insertion order (`changes: Dict[str, Dict[str, int]]`). -/
abbrev Ledger := List (String × List (String × Nat))

/-- Inner-dict step of `champ_items[item_id] = champ_items.get(item_id, 0) + 1`. -/
def incrAList : List (String × Nat) → String → List (String × Nat)
  | [], k => [(k, 1)]
  | (k', v) :: rest, k =>
    if k' = k then (k', v + 1) :: rest else (k', v) :: incrAList rest k

/-- `changes.setdefault(champion, {})` followed by the inner increment. -/
def ledgerIncr (m : Ledger) (champ old_id : String) : Ledger :=
  match m with
  | [] => [(champ, [(old_id, 1)])]
  | (c, inner) :: rest =>
    if c = champ then (c, incrAList inner old_id) :: rest
    else (c, inner) :: ledgerIncr rest champ old_id

/-- The count the ledger records for a (champion, old id) pair, 0 if absent. -/
def ledgerCount (m : Ledger) (c o : String) : Nat :=
  match alookup m c with
  | none => 0
  | some inner => (alookup inner o).getD 0

/-- Body of the inner `for item in items` loop of `replace_ids_in_itemset`:
returns the (possibly updated) item, the number of replacements in it (0 or 1),
and the updated ledger. -/
def replaceItem (idMap : List (String × String)) (champ : String) (changes : Ledger)
    (item : Json) : Json × Nat × Ledger :=
  match item with
  | .obj fields =>
    match alookup fields "id" with
    | none => (item, 0, changes)
    | some raw =>
      if raw.isNull then (item, 0, changes)
      else
        match alookup idMap (pyStr raw) with
        | some new_id =>
          if new_id ≠ "" ∧ new_id ≠ pyStr raw then
            (.obj (setField fields "id" (.str new_id)), 1, ledgerIncr changes champ (pyStr raw))
          else (item, 0, changes)
        | none => (item, 0, changes)
  | _ => (item, 0, changes)

/-- The inner loop over an `items` list, left to right. -/
def replaceItems (idMap : List (String × String)) (champ : String) :
    List Json → Ledger → List Json × Nat × Ledger
  | [], changes => ([], 0, changes)
  | item :: rest, changes =>
    let r := replaceItem idMap champ changes item
    let rr := replaceItems idMap champ rest r.2.2
    (r.1 :: rr.1, r.2.1 + rr.2.1, rr.2.2)

/-- Body of the outer `for block in blocks` loop: a block that is an object
with an `items` list has its items processed; anything else is skipped. -/
def replaceBlock (idMap : List (String × String)) (champ : String) (changes : Ledger)
    (block : Json) : Json × Nat × Ledger :=
  match block with
  | .obj bf =>
    match alookup bf "items" with
    | some (.arr items) =>
      let r := replaceItems idMap champ items changes
      (.obj (setField bf "items" (.arr r.1)), r.2.1, r.2.2)
    | _ => (block, 0, changes)
  | _ => (block, 0, changes)

/-- The outer loop over the `blocks` list. -/
def replaceBlocks (idMap : List (String × String)) (champ : String) :
    List Json → Ledger → List Json × Nat × Ledger
  | [], changes => ([], 0, changes)
  | block :: rest, changes =>
    let r := replaceBlock idMap champ changes block
    let rr := replaceBlocks idMap champ rest r.2.2
    (r.1 :: rr.1, r.2.1 + rr.2.1, rr.2.2)

/-- `replace_ids_in_itemset(obj, id_map, changes, champion)`: returns the
(possibly modified) object, the replacement count, and the updated ledger
(the Python version mutates `changes` in place). -/
def replace_ids_in_itemset (idMap : List (String × String)) (changes : Ledger)
    (champ : String) (obj : Json) : Json × Nat × Ledger :=
  match obj with
  | .obj fields =>
    match alookup fields "blocks" with
    | some (.arr blocks) =>
      let r := replaceBlocks idMap champ blocks changes
      (.obj (setField fields "blocks" (.arr r.1)), r.2.1, r.2.2)
    | _ => (obj, 0, changes)
  | _ => (obj, 0, changes)

/-- Content of a file on disk, as far as the tool observes it: either text that
fails `json.load`, or a parsed JSON value (written files are minified JSON). -/
inductive FileContent where
  | invalid (msg : String)
  | json (v : Json)

/-- The filesystem: a partial map from path strings to contents. -/
abbrev FS := String → Option FileContent

/-- A write-side effect of `process_file`: `shutil.copy2` to the backup path or
`_json_dump_minified` over the original path. -/
inductive FsOp where
  | copy (src dst : String)
  | write (p : String) (v : Json)

/-- Effect of one filesystem operation. -/
def applyOp (fs : FS) : FsOp → FS
  | .copy src dst => fun q => if q = dst then fs src else fs q
  | .write p v => fun q => if q = p then some (.json v) else fs q

/-- Effect of a list of operations, in order. -/
def applyOps (fs : FS) (ops : List FsOp) : FS := ops.foldl applyOp fs

/-- `path.with_suffix(path.suffix + ".bak")`; for the `*.json` paths produced
by the glob this is the original path with `.bak` appended. -/
def backupPath (p : String) : String := p ++ ".bak"

/-- Result of `process_file` plus its reified side effects. -/
structure PFRes where
  is_candidate : Bool
  replacements : Nat
  error : String
  changes : Ledger
  ops : List FsOp

/-- `process_file(path, root, id_map, changes, apply_changes, backup, map_code)`.
`champ` is the champion name `_champion_name_from_path` derives for `p`.
A missing file stands for the `OSError` branch (the exact message detail is
irrelevant to the run logic). -/
def process_file (idMap : List (String × String)) (map_code champ : String)
    (changes : Ledger) (apply_changes backup : Bool) (p : String) (fs : FS) : PFRes :=
  match fs p with
  | none => ⟨false, 0, "I/O error: cannot read file", changes, []⟩
  | some (.invalid msg) => ⟨false, 0, "Invalid JSON: " ++ msg, changes, []⟩
  | some (.json v) =>
    match v with
    | .obj fields =>
      match alookup fields "map" with
      | some (.str s) =>
        if s = map_code then
          let r := replace_ids_in_itemset idMap changes champ (.obj fields)
          ⟨true, r.2.1, "", r.2.2,
            if 0 < r.2.1 ∧ apply_changes then
              (if backup ∧ (fs (backupPath p)).isNone then
                [.copy p (backupPath p)] else []) ++ [.write p r.1]
            else []⟩
        else ⟨false, 0, "", changes, []⟩
      | _ => ⟨false, 0, "", changes, []⟩
    | _ => ⟨false, 0, "Unexpected JSON format (root is not an object)", changes, []⟩

/-- `RunStats` (counters are Python ints, hence `Int` here). -/
structure RunStats where
  files_scanned : Int := 0
  files_candidate_sr : Int := 0
  files_modified : Int := 0
  ids_replaced : Int := 0
deriving DecidableEq

/-- The orchestrator's accumulating state across the scan loop. -/
structure RunAcc where
  stats : RunStats := {}
  changes : Ledger := []
  champions_seen : List String := []
  warnings : List String := []
  modified_files : List String := []
deriving DecidableEq

/-- `RunResult` (the resolved root path is omitted: it never feeds back into
the run logic). -/
structure RunResult where
  stats : RunStats
  changes : Ledger
  modified_files : List String
  warnings : List String
  map_code : String
  champions_detected : List String
deriving DecidableEq

/-- The warning string `run_fix` records for a failed file. -/
def warnFor (p err : String) : String := "WARN: " ++ p ++ ": " ++ err

/-- `champions_seen.add(...)` on a set modelled as a duplicate-free list. -/
def addChampion (cs : List String) (c : String) : List String :=
  if cs.contains c then cs else cs ++ [c]

/-- One iteration of the `for json_path in iter_itemset_json_files(root)` loop
of `run_fix`; `f` is the located (path, champion) pair. -/
def runStep (idMap : List (String × String)) (map_code : String)
    (apply_changes backup : Bool) (fs : FS) (acc : RunAcc) (f : String × String) :
    RunAcc × FS :=
  let stats1 := { acc.stats with files_scanned := acc.stats.files_scanned + 1 }
  let r := process_file idMap map_code f.2 acc.changes apply_changes backup f.1 fs
  if r.error ≠ "" then
    ({ acc with stats := stats1, warnings := acc.warnings ++ [warnFor f.1 r.error] }, fs)
  else if r.is_candidate then
    ({ stats := { files_scanned := stats1.files_scanned,
                  files_candidate_sr := stats1.files_candidate_sr + 1,
                  files_modified := stats1.files_modified +
                    (if 0 < r.replacements then 1 else 0),
                  ids_replaced := stats1.ids_replaced + (r.replacements : Int) },
       changes := r.changes,
       champions_seen := addChampion acc.champions_seen f.2,
       warnings := acc.warnings,
       modified_files := acc.modified_files ++
         (if 0 < r.replacements then [f.1] else []) },
     applyOps fs r.ops)
  else ({ acc with stats := stats1 }, fs)

/-- The scan loop of `run_fix`, file by file. -/
def run_fix_go (idMap : List (String × String)) (map_code : String)
    (apply_changes backup : Bool) : List (String × String) → FS → RunAcc → RunAcc × FS
  | [], fs, acc => (acc, fs)
  | f :: rest, fs, acc =>
    let s := runStep idMap map_code apply_changes backup fs acc f
    run_fix_go idMap map_code apply_changes backup rest s.2 s.1

/-- Code point of a character, lowered when it is an ASCII capital; models
`str.casefold` for the ASCII directory names the tool sorts (full Unicode
folding is outside the embedding). -/
def lowerNat (n : Nat) : Nat := if 65 ≤ n ∧ n ≤ 90 then n + 32 else n

/-- Sort key of `str.casefold(s)`: lowered code points. -/
def caseKey (s : String) : List Nat := s.data.map (fun c => lowerNat c.toNat)

/-- Sort key of a plain string comparison: its code points. -/
def strKey (s : String) : List Nat := s.data.map Char.toNat

/-- Lexicographic strictly-less on code-point lists, as Python compares
strings. -/
def lexLt : List Nat → List Nat → Bool
  | [], [] => false
  | [], _ :: _ => true
  | _ :: _, [] => false
  | a :: as, b :: bs => if a < b then true else if b < a then false else lexLt as bs

/-- Insert into a sorted list, keeping earlier elements first on ties
(stability, as Python's `sorted`). -/
def insertLe {α : Type} (le : α → α → Bool) (a : α) : List α → List α
  | [] => [a]
  | b :: bs => if le a b then a :: b :: bs else b :: insertLe le a bs

/-- Stable insertion sort modelling Python's `sorted(..., key=...)`. -/
def sortLe {α : Type} (le : α → α → Bool) : List α → List α
  | [] => []
  | a :: as => insertLe le a (sortLe le as)

/-- `sorted(keys, key=str.casefold)` comparison. -/
def champLe (a b : String) : Bool := !lexLt (caseKey b) (caseKey a)

/-- `sorted(items, key=lambda kv: (-kv[1], kv[0]))` comparison. -/
def pairLe (a b : String × Nat) : Bool :=
  if b.2 < a.2 then true
  else if a.2 < b.2 then false
  else !lexLt (strKey b.1) (strKey a.1)

/-- One flattened Change Summary Row (dataclass `ChangeSummary`). -/
structure ChangeSummary where
  champion : String
  old_id : String
  new_id : String
  name_es : String
  name_en : String
  count : Nat
deriving DecidableEq

/-- The row `flatten_changes` emits for one ledger entry of a champion:
display metadata from the embedded map, or the defensive fallback row. -/
def rowFor (champion : String) (kv : String × Nat) : ChangeSummary :=
  match alookup (build_maps).2 kv.1 with
  | none => ⟨champion, kv.1, "?", "ID " ++ kv.1, "ID " ++ kv.1, kv.2⟩
  | some info => ⟨champion, info.old_id, info.new_id, info.name_es, info.name_en, kv.2⟩

/-- `flatten_changes(result)` on the result's ledger: champions sorted
case-insensitively, entries sorted by descending count then ascending id. -/
def flatten_changes (changes : Ledger) : List ChangeSummary :=
  (sortLe champLe (changes.map (fun kv => kv.1))).flatMap (fun champion =>
    (sortLe pairLe ((alookup changes champion).getD [])).map (rowFor champion))

/-- `run_fix(root, apply_changes, backup, map_code)` over the located
(path, champion) pairs and a filesystem; returns the result and the final
filesystem. -/
def run_fix (apply_changes backup : Bool) (map_code : String)
    (files : List (String × String)) (fs : FS) : RunResult × FS :=
  let s := run_fix_go (build_maps).1 map_code apply_changes backup files fs {}
  ({ stats := s.1.stats, changes := s.1.changes, modified_files := s.1.modified_files,
     warnings := s.1.warnings, map_code := map_code,
     champions_detected := sortLe champLe s.1.champions_seen }, s.2)

/-- The successive `RunStats` snapshots the scan produces: per file, the state
after the `files_scanned` increment, then the state the file step ends with. -/
def statsTrace (idMap : List (String × String)) (map_code : String)
    (apply_changes backup : Bool) : List (String × String) → FS → RunAcc → List RunStats
  | [], _, _ => []
  | f :: rest, fs, acc =>
    let s := runStep idMap map_code apply_changes backup fs acc f
    { acc.stats with files_scanned := acc.stats.files_scanned + 1 } :: s.1.stats ::
      statsTrace idMap map_code apply_changes backup rest s.2 s.1

/-- Marks the items the per-item loop replaces: for an object item with a
non-null id whose string form maps (under the code's condition) to a different,
non-empty new id, returns (old id string, new id). -/
def itemHit (idMap : List (String × String)) : Json → Option (String × String)
  | .obj fields =>
    match alookup fields "id" with
    | none => none
    | some raw =>
      if raw.isNull then none
      else
        match alookup idMap (pyStr raw) with
        | some new_id =>
          if new_id ≠ "" ∧ new_id ≠ pyStr raw then some (pyStr raw, new_id) else none
        | none => none
  | _ => none

/-- Modelled from the spec: the per-item replacement condition exactly as the
claim states it — the string form of the id is a key of the map and the mapped
value differs — with no further precondition. -/
def specHit (idMap : List (String × String)) : Json → Option (String × String)
  | .obj fields =>
    match alookup fields "id" with
    | none => none
    | some raw =>
      match alookup idMap (pyStr raw) with
      | some new_id => if new_id ≠ pyStr raw then some (pyStr raw, new_id) else none
      | none => none
  | _ => none

/-- The item an item becomes under a given hit criterion: the id field is
overwritten with the mapped value as a string, other items are unchanged. -/
def applyHit (h : Json → Option (String × String)) (item : Json) : Json :=
  match h item, item with
  | some kv, .obj fields => .obj (setField fields "id" (.str kv.2))
  | _, _ => item

/-- Old-id strings of the hit items of an items list, in order. -/
def hitsOf (h : Json → Option (String × String)) (items : List Json) : List String :=
  items.filterMap (fun it => (h it).map (fun kv => kv.1))

/-- What a block becomes: its `items` list is mapped item-wise; blocks of any
other shape are unchanged. -/
def blockApply (h : Json → Option (String × String)) (block : Json) : Json :=
  match block with
  | .obj bf =>
    match alookup bf "items" with
    | some (.arr items) => .obj (setField bf "items" (.arr (items.map (applyHit h))))
    | _ => block
  | _ => block

/-- Old-id strings of the hits inside one block. -/
def blockHits (h : Json → Option (String × String)) (block : Json) : List String :=
  match block with
  | .obj bf =>
    match alookup bf "items" with
    | some (.arr items) => hitsOf h items
    | _ => []
  | _ => []

/-- What a whole item-set object becomes under a hit criterion. -/
def topApply (h : Json → Option (String × String)) (obj : Json) : Json :=
  match obj with
  | .obj fields =>
    match alookup fields "blocks" with
    | some (.arr blocks) => .obj (setField fields "blocks" (.arr (blocks.map (blockApply h))))
    | _ => obj
  | _ => obj

/-- Old-id strings of all hits of a whole item-set object, in walk order. -/
def topHits (h : Json → Option (String × String)) (obj : Json) : List String :=
  match obj with
  | .obj fields =>
    match alookup fields "blocks" with
    | some (.arr blocks) => blocks.flatMap (blockHits h)
    | _ => []
  | _ => []

/-- Ledger increments for a list of replaced old ids of one champion. -/
def foldIncr (changes : Ledger) (champ : String) (olds : List String) : Ledger :=
  olds.foldl (fun ch o => ledgerIncr ch champ o) changes

/-- A successful lookup comes from a list entry. -/
theorem alookup_mem {α : Type} {l : List (String × α)} {k : String} {v : α}
    (h : alookup l k = some v) : (k, v) ∈ l := by
  induction l with
  | nil => simp [alookup] at h
  | cons kv rest ih =>
    obtain ⟨k', v'⟩ := kv
    by_cases hk : k' = k
    · subst hk
      simp [alookup] at h
      simp [h]
    · simp [alookup, hk] at h
      exact List.mem_cons_of_mem _ (ih h)

/-- Looking up the key just set yields the value just set. -/
theorem alookup_setField_self {α : Type} (l : List (String × α)) (k : String) (v : α) :
    alookup (setField l k v) k = some v := by
  induction l with
  | nil => simp [setField, alookup]
  | cons kv rest ih =>
    obtain ⟨k', v'⟩ := kv
    by_cases hk : k' = k
    · subst hk
      simp [setField, alookup]
    · simp [setField, alookup, hk, ih]

/-- Setting a key twice keeps only the second value. -/
theorem setField_setField {α : Type} (l : List (String × α)) (k : String) (v v' : α) :
    setField (setField l k v) k v' = setField l k v' := by
  induction l with
  | nil => simp [setField]
  | cons kv rest ih =>
    obtain ⟨k', v''⟩ := kv
    by_cases hk : k' = k
    · subst hk
      simp [setField]
    · simp [setField, hk, ih]

/-- An item without a hit passes through `applyHit` unchanged. -/
theorem applyHit_none {h : Json → Option (String × String)} {item : Json}
    (hh : h item = none) : applyHit h item = item := by
  unfold applyHit
  rw [hh]

/-- The per-item loop body, characterized by `itemHit`. -/
theorem replaceItem_char (idMap : List (String × String)) (champ : String)
    (changes : Ledger) (item : Json) :
    replaceItem idMap champ changes item =
      match itemHit idMap item with
      | some kv => (applyHit (itemHit idMap) item, 1, ledgerIncr changes champ kv.1)
      | none => (item, 0, changes) := by
  cases item with
  | obj fields =>
    simp only [replaceItem]
    split
    · rename_i heq
      simp [itemHit, heq]
    · rename_i raw heq
      cases hnull : raw.isNull with
      | true => simp [itemHit, heq, hnull]
      | false =>
        simp only [hnull, Bool.false_eq_true, if_false]
        split
        · rename_i new_id heq2
          by_cases hc : new_id ≠ "" ∧ new_id ≠ pyStr raw
          · have hhit : itemHit idMap (Json.obj fields) = some (pyStr raw, new_id) := by
              simp [itemHit, heq, hnull, heq2, hc]
            rw [hhit]
            simp [applyHit, hhit, hc]
          · simp [itemHit, heq, hnull, heq2, hc]
        · rename_i heq2
          simp [itemHit, heq, hnull, heq2]
  | null => rfl
  | bool b => rfl
  | num n => rfl
  | str s => rfl
  | arr xs => rfl

/-- The items loop, characterized: mapped items, number of hits, folded ledger. -/
theorem replaceItems_char (idMap : List (String × String)) (champ : String)
    (items : List Json) (changes : Ledger) :
    replaceItems idMap champ items changes =
      (items.map (applyHit (itemHit idMap)),
       (hitsOf (itemHit idMap) items).length,
       foldIncr changes champ (hitsOf (itemHit idMap) items)) := by
  induction items generalizing changes with
  | nil => simp [replaceItems, hitsOf, foldIncr]
  | cons item rest ih =>
    simp only [replaceItems, replaceItem_char]
    cases h : itemHit idMap item with
    | none =>
      simp [h, ih, hitsOf, List.filterMap_cons, applyHit_none h]
    | some kv =>
      simp [h, ih, hitsOf, List.filterMap_cons, foldIncr, Nat.add_comm]

/-- The block body, characterized. -/
theorem replaceBlock_char (idMap : List (String × String)) (champ : String)
    (changes : Ledger) (block : Json) :
    replaceBlock idMap champ changes block =
      (blockApply (itemHit idMap) block,
       (blockHits (itemHit idMap) block).length,
       foldIncr changes champ (blockHits (itemHit idMap) block)) := by
  cases block with
  | obj bf =>
    simp only [replaceBlock, blockApply, blockHits]
    split
    · rename_i items heq
      simp [replaceItems_char]
    · rename_i heq
      simp [foldIncr]
  | null => rfl
  | bool b => rfl
  | num n => rfl
  | str s => rfl
  | arr xs => rfl

/-- The blocks loop, characterized. -/
theorem replaceBlocks_char (idMap : List (String × String)) (champ : String)
    (blocks : List Json) (changes : Ledger) :
    replaceBlocks idMap champ blocks changes =
      (blocks.map (blockApply (itemHit idMap)),
       (blocks.flatMap (blockHits (itemHit idMap))).length,
       foldIncr changes champ (blocks.flatMap (blockHits (itemHit idMap)))) := by
  induction blocks generalizing changes with
  | nil => simp [replaceBlocks, foldIncr]
  | cons block rest ih =>
    simp only [replaceBlocks, replaceBlock_char, ih]
    simp [List.flatMap_cons, foldIncr, List.foldl_append]

/-- `replace_ids_in_itemset`, fully characterized by the hit walk. -/
theorem replace_ids_char (idMap : List (String × String)) (changes : Ledger)
    (champ : String) (obj : Json) :
    replace_ids_in_itemset idMap changes champ obj =
      (topApply (itemHit idMap) obj,
       (topHits (itemHit idMap) obj).length,
       foldIncr changes champ (topHits (itemHit idMap) obj)) := by
  cases obj with
  | obj fields =>
    simp only [replace_ids_in_itemset, topApply, topHits]
    split
    · rename_i blocks heq
      simp [replaceBlocks_char]
    · rename_i heq
      simp [foldIncr]
  | null => rfl
  | bool b => rfl
  | num n => rfl
  | str s => rfl
  | arr xs => rfl

/-- C10: in the embedded identifier map each new identifier is the string "32"
prepended to the old one — hence non-empty and different from it — and no new
identifier in the map's value range is itself a key of the map. -/
theorem C10_embedded_map_invariant :
    (∀ kv ∈ (build_maps).1, kv.2 = "32" ++ kv.1 ∧ kv.2 ≠ "" ∧ kv.2 ≠ kv.1) ∧
    (∀ kv ∈ (build_maps).1, alookup (build_maps).1 kv.2 = none) := by decide

/-- A hit records exactly the mapping the identifier map holds for its old id. -/
theorem itemHit_lookup {idMap : List (String × String)} {item : Json}
    {kv : String × String} (h : itemHit idMap item = some kv) :
    alookup idMap kv.1 = some kv.2 := by
  cases item with
  | obj fields =>
    simp only [itemHit] at h
    split at h
    · exact absurd h (by simp)
    · rename_i raw heq
      split at h
      · exact absurd h (by simp)
      · split at h
        · rename_i new_id heq2
          split at h
          · obtain ⟨h1, h2⟩ := Option.some.injEq _ _ ▸ h
            cases h
            exact heq2
          · exact absurd h (by simp)
        · exact absurd h (by simp)
  | null => exact absurd h (by simp [itemHit])
  | bool b => exact absurd h (by simp [itemHit])
  | num n => exact absurd h (by simp [itemHit])
  | str s => exact absurd h (by simp [itemHit])
  | arr xs => exact absurd h (by simp [itemHit])

/-- After a hit is applied, the item no longer hits, provided no mapped value
is itself a key of the map. -/
theorem itemHit_applyHit {idMap : List (String × String)}
    (hcl : ∀ kv ∈ idMap, alookup idMap kv.2 = none) (item : Json) :
    itemHit idMap (applyHit (itemHit idMap) item) = none := by
  cases hh : itemHit idMap item with
  | none => rw [applyHit_none hh]; exact hh
  | some kv =>
    have hmem : (kv.1, kv.2) ∈ idMap := alookup_mem (itemHit_lookup hh)
    have hnone : alookup idMap kv.2 = none := hcl _ hmem
    cases item with
    | obj fields =>
      have happ : applyHit (itemHit idMap) (Json.obj fields) =
          Json.obj (setField fields "id" (Json.str kv.2)) := by
        unfold applyHit
        rw [hh]
      rw [happ]
      simp [itemHit, alookup_setField_self, Json.isNull, pyStr, hnone]
    | null => exact absurd hh (by simp [itemHit])
    | bool b => exact absurd hh (by simp [itemHit])
    | num n => exact absurd hh (by simp [itemHit])
    | str s => exact absurd hh (by simp [itemHit])
    | arr xs => exact absurd hh (by simp [itemHit])

/-- Applying the hit map twice equals applying it once, per item. -/
theorem applyHit_applyHit {idMap : List (String × String)}
    (hcl : ∀ kv ∈ idMap, alookup idMap kv.2 = none) (item : Json) :
    applyHit (itemHit idMap) (applyHit (itemHit idMap) item) =
      applyHit (itemHit idMap) item :=
  applyHit_none (itemHit_applyHit hcl item)

/-- An already-transformed items list yields no hits. -/
theorem hitsOf_map_applyHit {idMap : List (String × String)}
    (hcl : ∀ kv ∈ idMap, alookup idMap kv.2 = none) (items : List Json) :
    hitsOf (itemHit idMap) (items.map (applyHit (itemHit idMap))) = [] := by
  induction items with
  | nil => rfl
  | cons item rest ih =>
    simp [hitsOf, List.filterMap_cons, itemHit_applyHit hcl]

/-- An already-transformed block yields no hits. -/
theorem blockHits_blockApply {idMap : List (String × String)}
    (hcl : ∀ kv ∈ idMap, alookup idMap kv.2 = none) (block : Json) :
    blockHits (itemHit idMap) (blockApply (itemHit idMap) block) = [] := by
  cases block with
  | obj bf =>
    cases halk : alookup bf "items" with
    | none => simp [blockApply, blockHits, halk]
    | some w =>
      cases w with
      | arr items =>
        simp [blockApply, blockHits, halk, alookup_setField_self, hitsOf_map_applyHit hcl]
      | null => simp [blockApply, blockHits, halk]
      | bool b => simp [blockApply, blockHits, halk]
      | num n => simp [blockApply, blockHits, halk]
      | str s => simp [blockApply, blockHits, halk]
      | obj ofs => simp [blockApply, blockHits, halk]
  | null => rfl
  | bool b => rfl
  | num n => rfl
  | str s => rfl
  | arr xs => rfl

/-- Transforming a block twice equals transforming it once. -/
theorem blockApply_blockApply {idMap : List (String × String)}
    (hcl : ∀ kv ∈ idMap, alookup idMap kv.2 = none) (block : Json) :
    blockApply (itemHit idMap) (blockApply (itemHit idMap) block) =
      blockApply (itemHit idMap) block := by
  cases block with
  | obj bf =>
    cases halk : alookup bf "items" with
    | none => simp [blockApply, halk]
    | some w =>
      cases w with
      | arr items =>
        simp [blockApply, halk, alookup_setField_self, setField_setField,
          List.map_map, Function.comp_def, applyHit_applyHit hcl]
      | null => simp [blockApply, halk]
      | bool b => simp [blockApply, halk]
      | num n => simp [blockApply, halk]
      | str s => simp [blockApply, halk]
      | obj ofs => simp [blockApply, halk]
  | null => rfl
  | bool b => rfl
  | num n => rfl
  | str s => rfl
  | arr xs => rfl

/-- An already-transformed item-set object yields no hits. -/
theorem topHits_topApply {idMap : List (String × String)}
    (hcl : ∀ kv ∈ idMap, alookup idMap kv.2 = none) (v : Json) :
    topHits (itemHit idMap) (topApply (itemHit idMap) v) = [] := by
  cases v with
  | obj fields =>
    cases halk : alookup fields "blocks" with
    | none => simp [topApply, topHits, halk]
    | some w =>
      cases w with
      | arr blocks =>
        simp [topApply, topHits, halk, alookup_setField_self, List.flatMap_def,
          List.map_map, Function.comp_def, blockHits_blockApply hcl]
      | null => simp [topApply, topHits, halk]
      | bool b => simp [topApply, topHits, halk]
      | num n => simp [topApply, topHits, halk]
      | str s => simp [topApply, topHits, halk]
      | obj ofs => simp [topApply, topHits, halk]
  | null => rfl
  | bool b => rfl
  | num n => rfl
  | str s => rfl
  | arr xs => rfl

/-- Transforming an item-set object twice equals transforming it once. -/
theorem topApply_topApply {idMap : List (String × String)}
    (hcl : ∀ kv ∈ idMap, alookup idMap kv.2 = none) (v : Json) :
    topApply (itemHit idMap) (topApply (itemHit idMap) v) =
      topApply (itemHit idMap) v := by
  cases v with
  | obj fields =>
    cases halk : alookup fields "blocks" with
    | none => simp [topApply, halk]
    | some w =>
      cases w with
      | arr blocks =>
        simp [topApply, halk, alookup_setField_self, setField_setField,
          List.map_map, Function.comp_def, blockApply_blockApply hcl]
      | null => simp [topApply, halk]
      | bool b => simp [topApply, halk]
      | num n => simp [topApply, halk]
      | str s => simp [topApply, halk]
      | obj ofs => simp [topApply, halk]
  | null => rfl
  | bool b => rfl
  | num n => rfl
  | str s => rfl
  | arr xs => rfl

/-- C4: with the embedded identifier map, the per-file transform is idempotent:
a second application returns the once-transformed value unchanged, reports zero
replacements, and leaves the ledger it was given untouched. -/
theorem C4_transform_idempotent (v : Json) (changes changes2 : Ledger) (champ : String) :
    replace_ids_in_itemset (build_maps).1 changes2 champ
        (replace_ids_in_itemset (build_maps).1 changes champ v).1 =
      ((replace_ids_in_itemset (build_maps).1 changes champ v).1, 0, changes2) := by
  have hcl : ∀ kv ∈ (build_maps).1, alookup (build_maps).1 kv.2 = none :=
    C10_embedded_map_invariant.2
  rw [replace_ids_char, replace_ids_char]
  simp [topHits_topApply hcl, topApply_topApply hcl, foldIncr]

/-- Incrementing an inner dict raises exactly the incremented key's count. -/
theorem alookup_incrAList_self (m : List (String × Nat)) (k : String) :
    alookup (incrAList m k) k = some ((alookup m k).getD 0 + 1) := by
  induction m with
  | nil => simp [incrAList, alookup]
  | cons kv rest ih =>
    obtain ⟨k', v⟩ := kv
    by_cases h : k' = k
    · subst h
      simp [incrAList, alookup]
    · simp [incrAList, alookup, h, ih]

/-- Incrementing an inner dict leaves other keys' counts alone. -/
theorem alookup_incrAList_ne (m : List (String × Nat)) {k k' : String} (h : k' ≠ k) :
    alookup (incrAList m k) k' = alookup m k' := by
  induction m with
  | nil => simp [incrAList, alookup, Ne.symm h]
  | cons kv rest ih =>
    obtain ⟨k0, v⟩ := kv
    by_cases h0 : k0 = k
    · subst h0
      simp [incrAList, alookup, Ne.symm h]
    · simp only [incrAList, if_neg h0]
      by_cases h1 : k0 = k'
      · simp [alookup, h1]
      · simp [alookup, h1, ih]

/-- A ledger increment leaves other champions' inner dicts alone. -/
theorem alookup_ledgerIncr_ne (m : Ledger) (c o : String) {c' : String} (h : c' ≠ c) :
    alookup (ledgerIncr m c o) c' = alookup m c' := by
  induction m with
  | nil => simp [ledgerIncr, alookup, Ne.symm h]
  | cons kv rest ih =>
    obtain ⟨c0, inner⟩ := kv
    by_cases h0 : c0 = c
    · subst h0
      simp [ledgerIncr, alookup, Ne.symm h]
    · simp only [ledgerIncr, if_neg h0]
      by_cases h1 : c0 = c'
      · simp [alookup, h1]
      · simp [alookup, h1, ih]

/-- A ledger increment raises exactly the incremented pair's count by one. -/
theorem ledgerCount_incr_self (m : Ledger) (c o : String) :
    ledgerCount (ledgerIncr m c o) c o = ledgerCount m c o + 1 := by
  induction m with
  | nil => simp [ledgerCount, ledgerIncr, alookup, incrAList]
  | cons kv rest ih =>
    obtain ⟨c0, inner⟩ := kv
    by_cases h0 : c0 = c
    · subst h0
      simp [ledgerCount, ledgerIncr, alookup, alookup_incrAList_self]
    · simp only [ledgerIncr, if_neg h0]
      simp only [ledgerCount, alookup, if_neg h0] at ih ⊢
      exact ih

/-- A ledger increment leaves every other pair's count unchanged. -/
theorem ledgerCount_incr_other (m : Ledger) (c o c' o' : String)
    (h : ¬(c' = c ∧ o' = o)) :
    ledgerCount (ledgerIncr m c o) c' o' = ledgerCount m c' o' := by
  by_cases hc : c' = c
  · subst hc
    have ho : o' ≠ o := fun h2 => h ⟨rfl, h2⟩
    induction m with
    | nil => simp [ledgerCount, ledgerIncr, alookup, incrAList, Ne.symm ho]
    | cons kv rest ih =>
      obtain ⟨c0, inner⟩ := kv
      by_cases h0 : c0 = c'
      · subst h0
        simp [ledgerCount, ledgerIncr, alookup, alookup_incrAList_ne _ ho]
      · simp only [ledgerIncr, if_neg h0]
        simp only [ledgerCount, alookup, if_neg h0] at ih ⊢
        exact ih
  · simp [ledgerCount, alookup_ledgerIncr_ne m c o hc]

/-- The code's hit condition coincides with the spec's plain one whenever no
mapped value is empty and "None" is not a key. -/
theorem itemHit_eq_specHit {idMap : List (String × String)}
    (hv : ∀ kv ∈ idMap, kv.2 ≠ "") (hn : alookup idMap "None" = none) (item : Json) :
    itemHit idMap item = specHit idMap item := by
  cases item with
  | obj fields =>
    cases h1 : alookup fields "id" with
    | none => simp [itemHit, specHit, h1]
    | some raw =>
      by_cases hnull : raw.isNull = true
      · have hr : raw = Json.null := by
          cases raw <;> first | rfl | simp [Json.isNull] at hnull
        subst hr
        simp [itemHit, specHit, h1, pyStr, pyRepr, hn, Json.isNull]
      · simp only [itemHit, specHit, h1]
        cases h2 : alookup idMap (pyStr raw) with
        | none => simp [hnull, h2]
        | some new_id =>
          have hne : new_id ≠ "" := hv _ (alookup_mem h2)
          simp [hnull, h2, hne]
  | null => rfl
  | bool b => rfl
  | num n => rfl
  | str s => rfl
  | arr xs => rfl

/-- C2: inside `replace_ids_in_itemset`, exactly the block-list items that are
objects whose id's string form is a mapped key with a differing mapped value
get their id overwritten with the mapped string; each such replacement bumps
the counter and the ledger entry for (champion, old id string); everything
else is untouched and uncounted. Stated via the spec-side hit criterion; the
two ledger conjuncts pin down what "incremented" means. -/
theorem C2_per_item_replacement (idMap : List (String × String)) (changes : Ledger)
    (champ : String) (obj : Json)
    (hv : ∀ kv ∈ idMap, kv.2 ≠ "") (hn : alookup idMap "None" = none) :
    replace_ids_in_itemset idMap changes champ obj =
      (topApply (specHit idMap) obj,
       (topHits (specHit idMap) obj).length,
       foldIncr changes champ (topHits (specHit idMap) obj)) ∧
    (∀ ch c o, ledgerCount (ledgerIncr ch c o) c o = ledgerCount ch c o + 1) ∧
    (∀ ch c o c' o', ¬(c' = c ∧ o' = o) →
      ledgerCount (ledgerIncr ch c o) c' o' = ledgerCount ch c' o') := by
  refine ⟨?_, ledgerCount_incr_self, ledgerCount_incr_other⟩
  have hf : itemHit idMap = specHit idMap := funext (itemHit_eq_specHit hv hn)
  rw [replace_ids_char, hf]

/-- The spec's worked example file: map SR, one block with ids 3003 and 9999. -/
def sampleObj : Json := .obj [("map", .str "SR"),
  ("blocks", .arr [.obj [("type", .str "starting"),
    ("items", .arr [.obj [("id", .str "3003"), ("count", .num 1)],
                    .obj [("id", .str "9999"), ("count", .num 1)]])]])]

/-- Witness for C2 at the embedded identifier map and the worked example. -/
theorem C2_per_item_replacement_witness :
    (∀ kv ∈ (build_maps).1, kv.2 ≠ "") ∧ alookup (build_maps).1 "None" = none ∧
    replace_ids_in_itemset (build_maps).1 [] "Ahri" sampleObj =
      (topApply (specHit (build_maps).1) sampleObj,
       (topHits (specHit (build_maps).1) sampleObj).length,
       foldIncr [] "Ahri" (topHits (specHit (build_maps).1) sampleObj)) :=
  ⟨by decide, by decide,
   (C2_per_item_replacement (build_maps).1 [] "Ahri" sampleObj (by decide) (by decide)).1⟩

/-- Concrete filesystem holding one JSON file whose top level is a list. -/
def fsArr : FS := fun q =>
  if q = "Ahri/Recommended/a.json" then some (.json (.arr [])) else none

/-- C1 counterexample: on a file that parses to a non-object top level, the
error string is NOT empty and the orchestrator DOES record a warning, contrary
to the claimed silent skip. -/
theorem C1_counterexample :
    (process_file (build_maps).1 "SR" "Ahri" [] true true
        "Ahri/Recommended/a.json" fsArr).error ≠ "" ∧
    (run_fix true true "SR" [("Ahri/Recommended/a.json", "Ahri")] fsArr).1.warnings =
      ["WARN: Ahri/Recommended/a.json: Unexpected JSON format (root is not an object)"] := by
  constructor
  · decide
  · decide

/-- C1 (amended): a file that parses to a non-object top level makes
`process_file` return is_candidate = false, zero replacements, and the
non-empty error "Unexpected JSON format (root is not an object)", with no
filesystem operation; the orchestrator records exactly one warning for it. -/
theorem C1_nonobject_root_warns (idMap : List (String × String))
    (map_code champ : String) (changes : Ledger) (a b : Bool) (p : String)
    (fs : FS) (v : Json) (acc : RunAcc)
    (hv : fs p = some (.json v)) (hobj : v.isObj = false) :
    process_file idMap map_code champ changes a b p fs =
      ⟨false, 0, "Unexpected JSON format (root is not an object)", changes, []⟩ ∧
    runStep idMap map_code a b fs acc (p, champ) =
      ({ acc with
          stats := { acc.stats with files_scanned := acc.stats.files_scanned + 1 },
          warnings := acc.warnings ++
            ["WARN: " ++ p ++ ": Unexpected JSON format (root is not an object)"] }, fs) := by
  have hpf : ∀ ch : Ledger, process_file idMap map_code champ ch a b p fs =
      ⟨false, 0, "Unexpected JSON format (root is not an object)", ch, []⟩ := by
    intro ch
    cases v with
    | obj fields => simp [Json.isObj] at hobj
    | null => simp [process_file, hv]
    | bool b2 => simp [process_file, hv]
    | num n => simp [process_file, hv]
    | str s => simp [process_file, hv]
    | arr xs => simp [process_file, hv]
  refine ⟨hpf changes, ?_⟩
  simp [runStep, hpf acc.changes, warnFor,
    show ("Unexpected JSON format (root is not an object)" : String) ≠ "" from by decide,
    String.append_assoc,
    show (": " ++ "Unexpected JSON format (root is not an object)" : String) =
      ": Unexpected JSON format (root is not an object)" from rfl]

/-- Witness for the amended C1 on a concrete one-file run. -/
theorem C1_nonobject_root_warns_witness :
    fsArr "Ahri/Recommended/a.json" = some (.json (.arr [])) ∧
    (Json.arr []).isObj = false ∧
    process_file (build_maps).1 "SR" "Ahri" [] true true "Ahri/Recommended/a.json" fsArr =
      ⟨false, 0, "Unexpected JSON format (root is not an object)", [], []⟩ :=
  ⟨rfl, rfl,
   (C1_nonobject_root_warns (build_maps).1 "SR" "Ahri" [] true true
      "Ahri/Recommended/a.json" fsArr (.arr []) {} rfl rfl).1⟩

/-- C5: a candidate-shaped file whose discriminator field holds any value other
than the expected one is silently skipped before any replacement or write:
`process_file` returns (false, 0, "") with no filesystem operation, and the
orchestrator only bumps files_scanned — no candidate count, no modified count,
no modified-files entry, no warning, and an unchanged filesystem. -/
theorem C5_discriminator_mismatch_skip (idMap : List (String × String))
    (map_code champ : String) (changes : Ledger) (a b : Bool) (p : String)
    (fs : FS) (fields : List (String × Json)) (w : Json) (acc : RunAcc)
    (hv : fs p = some (.json (.obj fields)))
    (hw : alookup fields "map" = some w) (hne : w ≠ .str map_code) :
    process_file idMap map_code champ changes a b p fs = ⟨false, 0, "", changes, []⟩ ∧
    runStep idMap map_code a b fs acc (p, champ) =
      ({ acc with
          stats := { acc.stats with files_scanned := acc.stats.files_scanned + 1 } },
       fs) := by
  have hpf : ∀ ch : Ledger, process_file idMap map_code champ ch a b p fs =
      ⟨false, 0, "", ch, []⟩ := by
    intro ch
    cases w with
    | str s =>
      have hs : s ≠ map_code := fun h => hne (by rw [h])
      simp [process_file, hv, hw, hs]
    | null => simp [process_file, hv, hw]
    | bool b2 => simp [process_file, hv, hw]
    | num n => simp [process_file, hv, hw]
    | arr xs => simp [process_file, hv, hw]
    | obj ofs => simp [process_file, hv, hw]
  refine ⟨hpf changes, ?_⟩
  simp [runStep, hpf acc.changes]

/-- Concrete filesystem holding one file with a non-matching discriminator. -/
def fsAram : FS := fun q =>
  if q = "Ahri/Recommended/aram.json" then
    some (.json (.obj [("map", .str "ARAM"),
      ("blocks", .arr [.obj [("items", .arr [.obj [("id", .str "3003")]])]])]))
  else none

/-- Witness for C5 on a concrete ARAM file. -/
theorem C5_discriminator_mismatch_skip_witness :
    fsAram "Ahri/Recommended/aram.json" =
      some (.json (.obj [("map", .str "ARAM"),
        ("blocks", .arr [.obj [("items", .arr [.obj [("id", .str "3003")]])]])])) ∧
    alookup [("map", Json.str "ARAM"),
      ("blocks", Json.arr [.obj [("items", .arr [.obj [("id", .str "3003")]])]])] "map" =
      some (.str "ARAM") ∧
    process_file (build_maps).1 "SR" "Ahri" [] true true "Ahri/Recommended/aram.json" fsAram =
      ⟨false, 0, "", [], []⟩ :=
  ⟨rfl, rfl,
   (C5_discriminator_mismatch_skip (build_maps).1 "SR" "Ahri" [] true true
      "Ahri/Recommended/aram.json" fsAram _ (.str "ARAM") {} rfl rfl
      (fun h => by injection h with h2; exact absurd h2 (by decide))).1⟩

/-- `True` exactly on backup-copy operations. -/
def FsOp.isCopy : FsOp → Bool
  | .copy _ _ => true
  | _ => false

/-- `True` exactly on file-write operations. -/
def FsOp.isWrite : FsOp → Bool
  | .write _ _ => true
  | _ => false

/-- The backup path is always distinct from the original path. -/
theorem backupPath_ne (p : String) : backupPath p ≠ p := by
  intro h
  have h2 : (p ++ ".bak").length = p.length := congrArg String.length h
  rw [String.length_append, show (".bak" : String).length = 4 from rfl] at h2
  omega

/-- In apply mode, a file with replacements emits exactly the conditional
backup copy followed by the write of the new object. -/
theorem process_ops_form (idMap : List (String × String)) (mc champ : String)
    (ch : Ledger) (b : Bool) (p : String) (fs : FS)
    (h : 0 < (process_file idMap mc champ ch true b p fs).replacements) :
    ∃ v : Json, (process_file idMap mc champ ch true b p fs).ops =
      (if b ∧ (fs (backupPath p)).isNone then [.copy p (backupPath p)] else []) ++
        [.write p v] := by
  cases hfp : fs p with
  | none => simp [process_file, hfp] at h
  | some c =>
    cases c with
    | invalid msg => simp [process_file, hfp] at h
    | json v =>
      cases v with
      | obj fields =>
        cases hm : alookup fields "map" with
        | none => simp [process_file, hfp, hm] at h
        | some w =>
          cases w with
          | str s =>
            by_cases hs : s = mc
            · simp only [process_file, hfp, hm, if_pos hs] at h ⊢
              simp only [h, true_and, if_pos (And.intro h trivial)]
              exact ⟨_, rfl⟩
            · simp [process_file, hfp, hm, hs] at h
          | null => simp [process_file, hfp, hm] at h
          | bool b2 => simp [process_file, hfp, hm] at h
          | num n => simp [process_file, hfp, hm] at h
          | arr xs => simp [process_file, hfp, hm] at h
          | obj ofs => simp [process_file, hfp, hm] at h
      | null => simp [process_file, hfp] at h
      | bool b2 => simp [process_file, hfp] at h
      | num n => simp [process_file, hfp] at h
      | str s => simp [process_file, hfp] at h
      | arr xs => simp [process_file, hfp] at h

/-- Concrete filesystem: a candidate file plus a stale pre-existing backup
whose content differs from the file's current content. -/
def fsStale : FS := fun q =>
  if q = "A/Recommended/x.json" then some (.json sampleObj)
  else if q = "A/Recommended/x.json.bak" then some (.json (.str "stale")) else none

/-- C7 counterexample: with a stale backup already present, the file is
modified (one replacement) yet afterwards the backup's content is the stale
one, not the file's pre-run content — the claim's "a backup exists whose
content equals the file's pre-run content" fails. -/
theorem C7_counterexample :
    0 < (process_file (build_maps).1 "SR" "A" [] true true
        "A/Recommended/x.json" fsStale).replacements ∧
    applyOps fsStale (process_file (build_maps).1 "SR" "A" [] true true
        "A/Recommended/x.json" fsStale).ops (backupPath "A/Recommended/x.json") =
      some (.json (.str "stale")) ∧
    fsStale "A/Recommended/x.json" = some (.json sampleObj) ∧
    some (FileContent.json (.str "stale")) ≠ some (FileContent.json sampleObj) := by
  refine ⟨by decide, rfl, rfl, ?_⟩
  intro h
  injection h with h2
  injection h2 with h3
  exact Json.noConfusion h3

/-- C7 (amended): when a file with replacements is processed in apply mode with
backups enabled, every backup-copy operation is ordered strictly before every
file-write operation; afterwards, if no backup existed before, the backup holds
the file's pre-run content; a pre-existing backup is left untouched (so it may
differ from the pre-run content); and the file itself is overwritten. -/
theorem C7_backup_ordering (idMap : List (String × String)) (mc champ : String)
    (ch : Ledger) (p : String) (fs : FS)
    (h : 0 < (process_file idMap mc champ ch true true p fs).replacements) :
    ((fs (backupPath p)).isNone = true →
      applyOps fs (process_file idMap mc champ ch true true p fs).ops (backupPath p) =
        fs p) ∧
    ((fs (backupPath p)).isSome = true →
      applyOps fs (process_file idMap mc champ ch true true p fs).ops (backupPath p) =
        fs (backupPath p)) ∧
    (∃ v : Json, applyOps fs (process_file idMap mc champ ch true true p fs).ops p =
      some (.json v)) ∧
    (∀ (i j : Nat) (op1 op2 : FsOp),
      (process_file idMap mc champ ch true true p fs).ops[i]? = some op1 →
      (process_file idMap mc champ ch true true p fs).ops[j]? = some op2 →
      op1.isCopy = true → op2.isWrite = true → i < j) := by
  obtain ⟨v, hops⟩ := process_ops_form idMap mc champ ch true p fs h
  have hbp : backupPath p ≠ p := backupPath_ne p
  cases hnb : (fs (backupPath p)).isNone with
  | true =>
    rw [hops]
    simp only [hnb, and_self, true_and, if_true, List.cons_append, List.nil_append]
    refine ⟨?_, ?_, ?_, ?_⟩
    · intro _
      simp [applyOps, applyOp, hbp]
    · intro hs
      rw [Option.isNone_iff_eq_none] at hnb
      rw [hnb] at hs
      simp at hs
    · exact ⟨v, by simp [applyOps, applyOp]⟩
    · intro i j op1 op2 h1 h2 hc hw
      have hi2 : i < 2 := by
        by_contra hh
        push_neg at hh
        rw [List.getElem?_eq_none (by simpa using hh)] at h1
        exact Option.noConfusion h1
      have hj2 : j < 2 := by
        by_contra hh
        push_neg at hh
        rw [List.getElem?_eq_none (by simpa using hh)] at h2
        exact Option.noConfusion h2
      interval_cases i <;> interval_cases j <;> cases op1 <;> cases op2 <;>
        simp_all [FsOp.isCopy, FsOp.isWrite]
  | false =>
    rw [hops]
    simp only [hnb, Bool.false_eq_true, and_false, if_false, List.nil_append]
    refine ⟨?_, ?_, ?_, ?_⟩
    · intro hno
      exact hno.elim
    · intro _
      simp [applyOps, applyOp, hbp]
    · exact ⟨v, by simp [applyOps, applyOp]⟩
    · intro i j op1 op2 h1 h2 hc hw
      have hi1 : i < 1 := by
        by_contra hh
        push_neg at hh
        rw [List.getElem?_eq_none (by simpa using hh)] at h1
        exact Option.noConfusion h1
      interval_cases i
      cases op1 <;> simp_all [FsOp.isCopy]

/-- Witness for the amended C7: on the stale-backup filesystem the file has a
replacement and the pre-existing backup is left untouched. -/
theorem C7_backup_ordering_witness :
    0 < (process_file (build_maps).1 "SR" "A" [] true true
        "A/Recommended/x.json" fsStale).replacements ∧
    ((fsStale (backupPath "A/Recommended/x.json")).isSome = true →
      applyOps fsStale (process_file (build_maps).1 "SR" "A" [] true true
          "A/Recommended/x.json" fsStale).ops (backupPath "A/Recommended/x.json") =
        fsStale (backupPath "A/Recommended/x.json")) :=
  ⟨by decide,
   (C7_backup_ordering (build_maps).1 "SR" "A" [] "A/Recommended/x.json" fsStale
      (by decide)).2.1⟩

/-- The pure outcome of `process_file` — candidate flag, replacement count,
error string — depends only on the file's own content, not on the incoming
ledger, the apply/backup flags, or the rest of the filesystem; the outgoing
ledger likewise whenever the incoming ledgers agree. -/
theorem process_file_agree (idMap : List (String × String)) (mc champ : String)
    (ch ch' : Ledger) (a a' b b' : Bool) (p : String) (fs fs' : FS)
    (hagree : fs p = fs' p) :
    (process_file idMap mc champ ch a b p fs).is_candidate =
      (process_file idMap mc champ ch' a' b' p fs').is_candidate ∧
    (process_file idMap mc champ ch a b p fs).replacements =
      (process_file idMap mc champ ch' a' b' p fs').replacements ∧
    (process_file idMap mc champ ch a b p fs).error =
      (process_file idMap mc champ ch' a' b' p fs').error ∧
    (ch = ch' →
      (process_file idMap mc champ ch a b p fs).changes =
        (process_file idMap mc champ ch' a' b' p fs').changes) := by
  cases hfp : fs p with
  | none =>
    have hfp2 : fs' p = none := by rw [← hagree, hfp]
    simp [process_file, hfp, hfp2]
  | some c =>
    have hfp2 : fs' p = some c := by rw [← hagree, hfp]
    cases c with
    | invalid msg => simp [process_file, hfp, hfp2]
    | json v =>
      cases v with
      | obj fields =>
        cases hm : alookup fields "map" with
        | none => simp [process_file, hfp, hfp2, hm]
        | some w =>
          cases w with
          | str s =>
            by_cases hs : s = mc
            · simp only [process_file, hfp, hfp2, hm, if_pos hs]
              rw [replace_ids_char, replace_ids_char]
              refine ⟨by simp, by simp, by simp, fun he => by rw [he]⟩
            · simp [process_file, hfp, hfp2, hm, hs]
          | null => simp [process_file, hfp, hfp2, hm]
          | bool b2 => simp [process_file, hfp, hfp2, hm]
          | num n => simp [process_file, hfp, hfp2, hm]
          | arr xs => simp [process_file, hfp, hfp2, hm]
          | obj ofs => simp [process_file, hfp, hfp2, hm]
      | null => simp [process_file, hfp, hfp2]
      | bool b2 => simp [process_file, hfp, hfp2]
      | num n => simp [process_file, hfp, hfp2]
      | str s => simp [process_file, hfp, hfp2]
      | arr xs => simp [process_file, hfp, hfp2]

/-- In dry-run mode `process_file` emits no filesystem operation. -/
theorem process_ops_dry (idMap : List (String × String)) (mc champ : String)
    (ch : Ledger) (b : Bool) (p : String) (fs : FS) :
    (process_file idMap mc champ ch false b p fs).ops = [] := by
  cases hfp : fs p with
  | none => simp [process_file, hfp]
  | some c =>
    cases c with
    | invalid msg => simp [process_file, hfp]
    | json v =>
      cases v with
      | obj fields =>
        cases hm : alookup fields "map" with
        | none => simp [process_file, hfp, hm]
        | some w =>
          cases w with
          | str s =>
            by_cases hs : s = mc
            · simp [process_file, hfp, hm, hs]
            · simp [process_file, hfp, hm, hs]
          | null => simp [process_file, hfp, hm]
          | bool b2 => simp [process_file, hfp, hm]
          | num n => simp [process_file, hfp, hm]
          | arr xs => simp [process_file, hfp, hm]
          | obj ofs => simp [process_file, hfp, hm]
      | null => simp [process_file, hfp]
      | bool b2 => simp [process_file, hfp]
      | num n => simp [process_file, hfp]
      | str s => simp [process_file, hfp]
      | arr xs => simp [process_file, hfp]

/-- `process_file`'s operations only ever touch the file's own path and its
backup path. -/
theorem applyOps_process_support (idMap : List (String × String)) (mc champ : String)
    (ch : Ledger) (a b : Bool) (p : String) (fs : FS) (q : String)
    (hq1 : q ≠ p) (hq2 : q ≠ backupPath p) :
    applyOps fs (process_file idMap mc champ ch a b p fs).ops q = fs q := by
  cases a with
  | false => rw [process_ops_dry]; rfl
  | true =>
    by_cases h : 0 < (process_file idMap mc champ ch true b p fs).replacements
    · obtain ⟨v, hops⟩ := process_ops_form idMap mc champ ch b p fs h
      rw [hops]
      by_cases hbn : b = true ∧ (fs (backupPath p)).isNone = true
      · rw [if_pos hbn]
        simp [applyOps, applyOp, hq1, hq2]
      · rw [if_neg hbn]
        simp [applyOps, applyOp, hq1, hq2]
    · have hz : (process_file idMap mc champ ch true b p fs).replacements = 0 := by omega
      have hops : (process_file idMap mc champ ch true b p fs).ops = [] := by
        cases hfp : fs p with
        | none => simp [process_file, hfp]
        | some c =>
          cases c with
          | invalid msg => simp [process_file, hfp]
          | json v =>
            cases v with
            | obj fields =>
              cases hm : alookup fields "map" with
              | none => simp [process_file, hfp, hm]
              | some w =>
                cases w with
                | str s =>
                  by_cases hs : s = mc
                  · simp only [process_file, hfp, hm, if_pos hs] at hz ⊢
                    simp [hz]
                  · simp [process_file, hfp, hm, hs]
                | null => simp [process_file, hfp, hm]
                | bool b2 => simp [process_file, hfp, hm]
                | num n => simp [process_file, hfp, hm]
                | arr xs => simp [process_file, hfp, hm]
                | obj ofs => simp [process_file, hfp, hm]
            | null => simp [process_file, hfp]
            | bool b2 => simp [process_file, hfp]
            | num n => simp [process_file, hfp]
            | str s => simp [process_file, hfp]
            | arr xs => simp [process_file, hfp]
      rw [hops]
      rfl

/-- A scan step leaves every path other than the file's own and its backup
untouched. -/
theorem runStep_fs_support (idMap : List (String × String)) (mc : String)
    (a b : Bool) (fs : FS) (acc : RunAcc) (f : String × String) (q : String)
    (hq1 : q ≠ f.1) (hq2 : q ≠ backupPath f.1) :
    (runStep idMap mc a b fs acc f).2 q = fs q := by
  by_cases hE : (process_file idMap mc f.2 acc.changes a b f.1 fs).error ≠ ""
  · simp [runStep, hE]
  · by_cases hC : (process_file idMap mc f.2 acc.changes a b f.1 fs).is_candidate = true
    · simp [runStep, hE, hC,
        applyOps_process_support idMap mc f.2 acc.changes a b f.1 fs q hq1 hq2]
    · simp [runStep, hE, hC]

/-- A scan step's accumulated result is the same whatever the flags, and on any
filesystem agreeing on the file's own content. -/
theorem runStep_agree (idMap : List (String × String)) (mc : String)
    (a a' b b' : Bool) (fs fs' : FS) (acc : RunAcc) (f : String × String)
    (hagree : fs f.1 = fs' f.1) :
    (runStep idMap mc a b fs acc f).1 = (runStep idMap mc a' b' fs' acc f).1 := by
  obtain ⟨e1, e2, e3, e4⟩ :=
    process_file_agree idMap mc f.2 acc.changes acc.changes a a' b b' f.1 fs fs' hagree
  have e4' := e4 rfl
  by_cases hE : (process_file idMap mc f.2 acc.changes a' b' f.1 fs').error ≠ ""
  · simp [runStep, hE, e3]
  · by_cases hC : (process_file idMap mc f.2 acc.changes a' b' f.1 fs').is_candidate = true
    · simp [runStep, hE, hC, e1, e2, e3, e4']
    · simp [runStep, hE, hC, e1, e2, e3]

/-- In dry-run mode a scan step leaves the filesystem untouched. -/
theorem runStep_dry_fs (idMap : List (String × String)) (mc : String) (b : Bool)
    (fs : FS) (acc : RunAcc) (f : String × String) :
    (runStep idMap mc false b fs acc f).2 = fs := by
  by_cases hE : (process_file idMap mc f.2 acc.changes false b f.1 fs).error ≠ ""
  · simp [runStep, hE]
  · by_cases hC : (process_file idMap mc f.2 acc.changes false b f.1 fs).is_candidate = true
    · simp [runStep, hE, hC, process_ops_dry, applyOps]
    · simp [runStep, hE, hC]

/-- Over distinct paths (no located path equal to an earlier one or to an
earlier one's backup path), the scan's accumulated result is independent of
the flags and of filesystem differences outside the scanned files. -/
theorem run_fix_go_agree (idMap : List (String × String)) (mc : String)
    (a a' b b' : Bool) :
    ∀ (files : List (String × String)) (fs fs' : FS) (acc : RunAcc),
      (∀ f ∈ files, fs f.1 = fs' f.1) →
      List.Pairwise (fun f g => g.1 ≠ f.1 ∧ g.1 ≠ backupPath f.1) files →
      (run_fix_go idMap mc a b files fs acc).1 =
        (run_fix_go idMap mc a' b' files fs' acc).1 := by
  intro files
  induction files with
  | nil => intro fs fs' acc _ _; rfl
  | cons f rest ih =>
    intro fs fs' acc hag hpw
    rw [List.pairwise_cons] at hpw
    obtain ⟨hf, hpw'⟩ := hpw
    have hagf : fs f.1 = fs' f.1 := hag f (List.mem_cons_self f rest)
    have hstep : (runStep idMap mc a b fs acc f).1 = (runStep idMap mc a' b' fs' acc f).1 :=
      runStep_agree idMap mc a a' b b' fs fs' acc f hagf
    simp only [run_fix_go]
    rw [hstep]
    refine ih _ _ _ ?_ hpw'
    intro g hg
    rw [runStep_fs_support idMap mc a b fs acc f g.1 (hf g hg).1 (hf g hg).2,
        runStep_fs_support idMap mc a' b' fs' acc f g.1 (hf g hg).1 (hf g hg).2]
    exact hag g (List.mem_cons_of_mem f hg)

/-- In dry-run mode the whole scan leaves the filesystem untouched. -/
theorem run_fix_go_dry_fs (idMap : List (String × String)) (mc : String) (b : Bool) :
    ∀ (files : List (String × String)) (fs : FS) (acc : RunAcc),
      (run_fix_go idMap mc false b files fs acc).2 = fs := by
  intro files
  induction files with
  | nil => intro fs acc; rfl
  | cons f rest ih =>
    intro fs acc
    simp only [run_fix_go]
    rw [runStep_dry_fs]
    exact ih fs _

/-- C6: with apply_changes = false no process step emits any filesystem
operation, the scan returns the filesystem unchanged, and the reported
RunResult (statistics, ledger, modified list, warnings, champions) is the one
the same run in apply mode would report, provided the located paths are
distinct and none equals another's backup path — which holds for the glob's
`*.json` results. -/
theorem C6_dry_run_equivalence (b : Bool) (mc : String)
    (files : List (String × String)) (fs : FS)
    (hpw : List.Pairwise (fun f g => g.1 ≠ f.1 ∧ g.1 ≠ backupPath f.1) files) :
    (run_fix false b mc files fs).2 = fs ∧
    (∀ (ch : Ledger) (champ p : String) (b' : Bool) (fs' : FS),
      (process_file (build_maps).1 mc champ ch false b' p fs').ops = []) ∧
    (run_fix false b mc files fs).1 = (run_fix true b mc files fs).1 := by
  refine ⟨?_, ?_, ?_⟩
  · simp only [run_fix]
    exact run_fix_go_dry_fs _ _ _ files fs _
  · intro ch champ p b' fs'
    exact process_ops_dry _ _ _ _ _ _ _
  · simp only [run_fix]
    have hgo : (run_fix_go (build_maps).1 mc false b files fs {}).1 =
        (run_fix_go (build_maps).1 mc true b files fs {}).1 :=
      run_fix_go_agree _ _ false true b b files fs fs {} (fun _ _ => rfl) hpw
    rw [hgo]

/-- Witness for C6 on a concrete one-file run. -/
theorem C6_dry_run_equivalence_witness :
    List.Pairwise (fun f g : String × String => g.1 ≠ f.1 ∧ g.1 ≠ backupPath f.1)
      [("A/Recommended/x.json", "A")] ∧
    (run_fix false true "SR" [("A/Recommended/x.json", "A")] fsStale).2 = fsStale :=
  ⟨by decide,
   (C6_dry_run_equivalence true "SR" [("A/Recommended/x.json", "A")] fsStale (by decide)).1⟩

/-- `True` exactly when a located file would be counted as modified: candidate,
no error, and a positive replacement count (computed against the pristine
filesystem with neutral flags and an empty ledger, on which the pure outcome
does not depend). -/
def wouldModify (idMap : List (String × String)) (mc : String) (fs : FS)
    (f : String × String) : Bool :=
  ((process_file idMap mc f.2 [] false false f.1 fs).error == "") &&
  (process_file idMap mc f.2 [] false false f.1 fs).is_candidate &&
  decide (0 < (process_file idMap mc f.2 [] false false f.1 fs).replacements)

/-- One dry-run scan step appends the path to the modified list and bumps
files_modified exactly when the file would be modified. -/
theorem runStep_dry_parts (idMap : List (String × String)) (mc : String) (b : Bool)
    (fs : FS) (acc : RunAcc) (f : String × String) :
    (runStep idMap mc false b fs acc f).1.modified_files =
      acc.modified_files ++ (if wouldModify idMap mc fs f then [f.1] else []) ∧
    (runStep idMap mc false b fs acc f).1.stats.files_modified =
      acc.stats.files_modified + (if wouldModify idMap mc fs f then 1 else 0) := by
  obtain ⟨e1, e2, e3, _⟩ :=
    process_file_agree idMap mc f.2 acc.changes [] false false b false f.1 fs fs rfl
  by_cases hE : (process_file idMap mc f.2 [] false false f.1 fs).error = ""
  · by_cases hC : (process_file idMap mc f.2 [] false false f.1 fs).is_candidate = true
    · by_cases hR : 0 < (process_file idMap mc f.2 [] false false f.1 fs).replacements
      · have hw : wouldModify idMap mc fs f = true := by
          simp [wouldModify, hE, hC, hR]
        constructor <;> simp [runStep, e1, e2, e3, hE, hC, hR, hw]
      · have hw : wouldModify idMap mc fs f = false := by
          simp [wouldModify, hR]
        constructor <;> simp [runStep, e1, e2, e3, hE, hC, hR, hw]
    · have hw : wouldModify idMap mc fs f = false := by
        simp [wouldModify, hC]
      constructor <;> simp [runStep, e1, e2, e3, hE, hC, hw]
  · have hw : wouldModify idMap mc fs f = false := by
      simp [wouldModify, hE]
    have hne : (process_file idMap mc f.2 acc.changes false b f.1 fs).error ≠ "" := by
      rw [e3]; exact hE
    constructor <;> simp [runStep, hne, hw]

/-- Over a dry-run scan, the modified list is exactly the would-modify files in
scan order, and files_modified counts them. -/
theorem run_fix_go_dry_modified (idMap : List (String × String)) (mc : String) (b : Bool) :
    ∀ (files : List (String × String)) (fs : FS) (acc : RunAcc),
      (run_fix_go idMap mc false b files fs acc).1.modified_files =
        acc.modified_files ++ (files.filter (wouldModify idMap mc fs)).map (fun f => f.1) ∧
      (run_fix_go idMap mc false b files fs acc).1.stats.files_modified =
        acc.stats.files_modified + ((files.filter (wouldModify idMap mc fs)).length : Int) := by
  intro files
  induction files with
  | nil => intro fs acc; simp [run_fix_go]
  | cons f rest ih =>
    intro fs acc
    obtain ⟨ihm, ihs⟩ := ih fs (runStep idMap mc false b fs acc f).1
    simp only [run_fix_go]
    rw [runStep_dry_fs]
    constructor
    · rw [ihm, (runStep_dry_parts idMap mc b fs acc f).1]
      by_cases hw : wouldModify idMap mc fs f = true
      · simp [hw, List.filter_cons, List.append_assoc]
      · simp [hw, List.filter_cons]
    · rw [ihs, (runStep_dry_parts idMap mc b fs acc f).2]
      by_cases hw : wouldModify idMap mc fs f = true
      · simp only [hw, List.filter_cons, if_true, if_pos hw, List.length_cons]
        push_cast
        ring
      · simp [hw, List.filter_cons]

/-- C3: the orchestrator's run result is identical in apply and dry-run mode
(given distinct located paths, as the glob guarantees), and in it the
modified-files list collects exactly the candidate files with a positive
replacement count, in scan order, with files_modified their number. -/
theorem C3_modified_iff_replacements (b : Bool) (mc : String)
    (files : List (String × String)) (fs : FS)
    (hpw : List.Pairwise (fun f g => g.1 ≠ f.1 ∧ g.1 ≠ backupPath f.1) files) :
    (run_fix true b mc files fs).1 = (run_fix false b mc files fs).1 ∧
    (run_fix false b mc files fs).1.modified_files =
      (files.filter (wouldModify (build_maps).1 mc fs)).map (fun f => f.1) ∧
    (run_fix false b mc files fs).1.stats.files_modified =
      ((files.filter (wouldModify (build_maps).1 mc fs)).length : Int) := by
  refine ⟨?_, ?_, ?_⟩
  · simp only [run_fix]
    rw [run_fix_go_agree _ _ true false b b files fs fs {} (fun _ _ => rfl) hpw]
  · simp only [run_fix]
    have h := (run_fix_go_dry_modified (build_maps).1 mc b files fs {}).1
    simpa using h
  · simp only [run_fix]
    have h := (run_fix_go_dry_modified (build_maps).1 mc b files fs {}).2
    simpa using h

/-- Witness for C3 on a concrete one-file run. -/
theorem C3_modified_iff_replacements_witness :
    List.Pairwise (fun f g : String × String => g.1 ≠ f.1 ∧ g.1 ≠ backupPath f.1)
      [("A/Recommended/x.json", "A")] ∧
    (run_fix false true "SR" [("A/Recommended/x.json", "A")] fsStale).1.modified_files =
      (([("A/Recommended/x.json", "A")].filter
        (wouldModify (build_maps).1 "SR" fsStale)).map (fun f => f.1)) :=
  ⟨by decide,
   (C3_modified_iff_replacements true "SR" [("A/Recommended/x.json", "A")] fsStale
      (by decide)).2.1⟩

/-- Componentwise order on run statistics. -/
def statsLe (s t : RunStats) : Prop :=
  s.files_scanned ≤ t.files_scanned ∧ s.files_candidate_sr ≤ t.files_candidate_sr ∧
  s.files_modified ≤ t.files_modified ∧ s.ids_replaced ≤ t.ids_replaced

/-- The statistics invariant: all counters non-negative, candidates bounded by
scanned files, modified files bounded by candidates. -/
def statsInv (s : RunStats) : Prop :=
  0 ≤ s.files_scanned ∧ 0 ≤ s.files_candidate_sr ∧ 0 ≤ s.files_modified ∧
  0 ≤ s.ids_replaced ∧ s.files_candidate_sr ≤ s.files_scanned ∧
  s.files_modified ≤ s.files_candidate_sr

/-- One scan step's two statistics snapshots are increasing and preserve the
invariant. -/
theorem runStep_stats (idMap : List (String × String)) (mc : String) (a b : Bool)
    (fs : FS) (acc : RunAcc) (f : String × String) (hinv : statsInv acc.stats) :
    statsLe acc.stats { acc.stats with files_scanned := acc.stats.files_scanned + 1 } ∧
    statsLe { acc.stats with files_scanned := acc.stats.files_scanned + 1 }
      (runStep idMap mc a b fs acc f).1.stats ∧
    statsInv { acc.stats with files_scanned := acc.stats.files_scanned + 1 } ∧
    statsInv (runStep idMap mc a b fs acc f).1.stats := by
  obtain ⟨h1, h2, h3, h4, h5, h6⟩ := hinv
  have hsl : statsLe acc.stats
      { acc.stats with files_scanned := acc.stats.files_scanned + 1 } := by
    simp only [statsLe]
    refine ⟨by omega, le_refl _, le_refl _, le_refl _⟩
  have hi1 : statsInv { acc.stats with files_scanned := acc.stats.files_scanned + 1 } := by
    simp only [statsInv]
    refine ⟨by omega, by omega, by omega, by omega, by omega, by omega⟩
  by_cases hE : (process_file idMap mc f.2 acc.changes a b f.1 fs).error ≠ ""
  · refine ⟨hsl, ?_, hi1, ?_⟩ <;> simp [runStep, hE, statsLe, statsInv] <;> omega
  · by_cases hC : (process_file idMap mc f.2 acc.changes a b f.1 fs).is_candidate = true
    · by_cases hR : 0 < (process_file idMap mc f.2 acc.changes a b f.1 fs).replacements
      · refine ⟨hsl, ?_, hi1, ?_⟩ <;> simp [runStep, hE, hC, hR, statsLe, statsInv] <;> omega
      · refine ⟨hsl, ?_, hi1, ?_⟩ <;> simp [runStep, hE, hC, hR, statsLe, statsInv] <;> omega
    · refine ⟨hsl, ?_, hi1, ?_⟩ <;> simp [runStep, hE, hC, statsLe, statsInv] <;> omega

/-- Every scan step bumps files_scanned by exactly one, whatever the outcome. -/
theorem runStep_scanned (idMap : List (String × String)) (mc : String) (a b : Bool)
    (fs : FS) (acc : RunAcc) (f : String × String) :
    (runStep idMap mc a b fs acc f).1.stats.files_scanned =
      acc.stats.files_scanned + 1 := by
  by_cases hE : (process_file idMap mc f.2 acc.changes a b f.1 fs).error ≠ ""
  · simp [runStep, hE]
  · by_cases hC : (process_file idMap mc f.2 acc.changes a b f.1 fs).is_candidate = true
    · simp [runStep, hE, hC]
    · simp [runStep, hE, hC]

/-- The scan counts every located file in files_scanned. -/
theorem run_fix_go_scanned (idMap : List (String × String)) (mc : String) (a b : Bool) :
    ∀ (files : List (String × String)) (fs : FS) (acc : RunAcc),
      (run_fix_go idMap mc a b files fs acc).1.stats.files_scanned =
        acc.stats.files_scanned + (files.length : Int) := by
  intro files
  induction files with
  | nil => intro fs acc; simp [run_fix_go]
  | cons f rest ih =>
    intro fs acc
    simp only [run_fix_go]
    rw [ih, runStep_scanned]
    simp only [List.length_cons]
    push_cast
    ring

/-- Along the scan, the statistics snapshots form a non-decreasing chain, all
satisfy the invariant, and the final statistics are the last snapshot. -/
theorem statsTrace_inv (idMap : List (String × String)) (mc : String) (a b : Bool) :
    ∀ (files : List (String × String)) (fs : FS) (acc : RunAcc),
      statsInv acc.stats →
      List.Chain' statsLe (acc.stats :: statsTrace idMap mc a b files fs acc) ∧
      (∀ s ∈ statsTrace idMap mc a b files fs acc, statsInv s) ∧
      (run_fix_go idMap mc a b files fs acc).1.stats =
        (statsTrace idMap mc a b files fs acc).getLastD acc.stats := by
  intro files
  induction files with
  | nil =>
    intro fs acc hinv
    exact ⟨by simp [statsTrace], by simp [statsTrace], by simp [statsTrace, run_fix_go]⟩
  | cons f rest ih =>
    intro fs acc hinv
    obtain ⟨ha, hb, hc, hd⟩ := runStep_stats idMap mc a b fs acc f hinv
    obtain ⟨ihc, ihi, ihl⟩ :=
      ih (runStep idMap mc a b fs acc f).2 (runStep idMap mc a b fs acc f).1 hd
    refine ⟨?_, ?_, ?_⟩
    · simp only [statsTrace]
      rw [List.chain'_cons, List.chain'_cons]
      exact ⟨ha, hb, ihc⟩
    · simp only [statsTrace]
      intro s hs
      simp only [List.mem_cons] at hs
      rcases hs with hs | hs | hs
      · rw [hs]; exact hc
      · rw [hs]; exact hd
      · exact ihi s hs
    · simp only [statsTrace, run_fix_go, List.getLastD_cons]
      exact ihl

/-- C9: along any run, the statistics snapshots are non-negative, monotonically
non-decreasing, always satisfy candidates ≤ scanned and modified ≤ candidates,
the final statistics are the last snapshot, and files_scanned ends at the
number of located paths, whatever each file's outcome. -/
theorem C9_stats_invariants (a b : Bool) (mc : String)
    (files : List (String × String)) (fs : FS) :
    List.Chain' statsLe
      (({} : RunStats) :: statsTrace (build_maps).1 mc a b files fs {}) ∧
    statsInv ({} : RunStats) ∧
    (∀ s ∈ statsTrace (build_maps).1 mc a b files fs {}, statsInv s) ∧
    (run_fix a b mc files fs).1.stats =
      (statsTrace (build_maps).1 mc a b files fs {}).getLastD {} ∧
    (run_fix a b mc files fs).1.stats.files_scanned = (files.length : Int) := by
  have hinv : statsInv ({} : RunAcc).stats := by
    refine ⟨le_refl 0, le_refl 0, le_refl 0, le_refl 0, le_refl 0, le_refl 0⟩
  obtain ⟨hchain, hmem, hlast⟩ := statsTrace_inv (build_maps).1 mc a b files fs {} hinv
  refine ⟨hchain, hinv, hmem, ?_, ?_⟩
  · simp only [run_fix]
    exact hlast
  · simp only [run_fix]
    rw [run_fix_go_scanned]
    simp

/-- Lexicographic less is irreflexive. -/
theorem lexLt_irrefl (x : List Nat) : lexLt x x = false := by
  induction x with
  | nil => rfl
  | cons a as ih => simp [lexLt, ih]

/-- Lexicographic less is asymmetric. -/
theorem lexLt_asymm (x : List Nat) : ∀ (y : List Nat),
    lexLt x y = true → lexLt y x = true → False := by
  induction x with
  | nil =>
    intro y h1 h2
    cases y with
    | nil => simp [lexLt] at h1
    | cons b bs => simp [lexLt] at h2
  | cons a as ih =>
    intro y h1 h2
    cases y with
    | nil => simp [lexLt] at h1
    | cons b bs =>
      by_cases hab : a < b
      · simp only [lexLt, if_neg (Nat.lt_asymm hab), if_pos hab] at h2
        exact Bool.noConfusion h2
      · by_cases hba : b < a
        · simp [lexLt, hab, hba] at h1
        · simp [lexLt, hab, hba] at h1 h2
          exact ih bs h1 h2

/-- Lexicographic less is a strict weak order: a witness below `x` is below any
`y` or `y` is below the witness. -/
theorem lexLt_or (x : List Nat) : ∀ (a b : List Nat),
    lexLt x a = true → lexLt x b = true ∨ lexLt b a = true := by
  induction x with
  | nil =>
    intro a b h
    cases a with
    | nil => simp [lexLt] at h
    | cons v vs =>
      cases b with
      | nil => right; simp [lexLt]
      | cons w ws => left; simp [lexLt]
  | cons u us ih =>
    intro a b h
    cases a with
    | nil => simp [lexLt] at h
    | cons v vs =>
      cases b with
      | nil => right; simp [lexLt]
      | cons w ws =>
        by_cases huv : u < v
        · by_cases huw : u < w
          · left; simp [lexLt, huw]
          · right
            simp [lexLt]
            omega
        · by_cases hvu : v < u
          · simp [lexLt, huv, hvu] at h
          · have huv2 : u = v := by omega
            subst huv2
            simp only [lexLt, if_neg huv, if_neg hvu] at h
            by_cases huw : u < w
            · left; simp [lexLt, huw]
            · by_cases hwu : w < u
              · right; simp [lexLt]; omega
              · have huw2 : u = w := by omega
                subst huw2
                rcases ih vs ws h with h2 | h2
                · left; simp [lexLt, lexLt_irrefl, h2]
                · right; simp [lexLt, lexLt_irrefl, h2]

/-- `champLe` is reflexive. -/
theorem champLe_refl (a : String) : champLe a a = true := by
  simp [champLe, lexLt_irrefl]

/-- `champLe` is transitive. -/
theorem champLe_trans {a b c : String} (h1 : champLe a b = true)
    (h2 : champLe b c = true) : champLe a c = true := by
  simp only [champLe, Bool.not_eq_true'] at h1 h2 ⊢
  by_contra hh
  rw [Bool.not_eq_false] at hh
  rcases lexLt_or _ _ (caseKey b) hh with h3 | h3
  · rw [h3] at h2; exact Bool.noConfusion h2
  · rw [h3] at h1; exact Bool.noConfusion h1

/-- `champLe` is total. -/
theorem champLe_or (a b : String) : champLe a b = true ∨ champLe b a = true := by
  simp only [champLe, Bool.not_eq_true']
  by_cases h1 : lexLt (caseKey b) (caseKey a) = true
  · right
    by_cases h2 : lexLt (caseKey a) (caseKey b) = true
    · exact (lexLt_asymm _ _ h1 h2).elim
    · simp [h2]
  · left
    simp [h1]

/-- `pairLe` is transitive. -/
theorem pairLe_trans {a b c : String × Nat} (h1 : pairLe a b = true)
    (h2 : pairLe b c = true) : pairLe a c = true := by
  simp only [pairLe] at h1 h2 ⊢
  have hba : b.2 ≤ a.2 := by
    by_contra hh
    push_neg at hh
    rw [if_neg (by omega), if_pos hh] at h1
    exact Bool.noConfusion h1
  have hcb : c.2 ≤ b.2 := by
    by_contra hh
    push_neg at hh
    rw [if_neg (by omega), if_pos hh] at h2
    exact Bool.noConfusion h2
  by_cases hca : c.2 < a.2
  · rw [if_pos hca]
  · have hb1 : lexLt (strKey b.1) (strKey a.1) = false := by
      rw [if_neg (by omega), if_neg (by omega)] at h1
      simpa using h1
    have hb2 : lexLt (strKey c.1) (strKey b.1) = false := by
      rw [if_neg (by omega), if_neg (by omega)] at h2
      simpa using h2
    rw [if_neg hca, if_neg (by omega)]
    simp only [Bool.not_eq_true']
    by_contra hh
    rw [Bool.not_eq_false] at hh
    rcases lexLt_or _ _ (strKey b.1) hh with h3 | h3
    · rw [h3] at hb2
      exact Bool.noConfusion hb2
    · rw [h3] at hb1
      exact Bool.noConfusion hb1

/-- `pairLe` is total. -/
theorem pairLe_or (a b : String × Nat) : pairLe a b = true ∨ pairLe b a = true := by
  simp only [pairLe]
  by_cases hba : b.2 < a.2
  · left
    rw [if_pos hba]
  · by_cases hab : a.2 < b.2
    · right
      rw [if_pos hab]
    · rw [if_neg hba, if_neg hab, if_neg hab, if_neg hba]
      by_cases h1 : lexLt (strKey b.1) (strKey a.1) = true
      · right
        by_cases h2 : lexLt (strKey a.1) (strKey b.1) = true
        · exact (lexLt_asymm _ _ h1 h2).elim
        · simp [h2]
      · left
        simp [h1]

/-- Insertion produces a permutation of consing. -/
theorem insertLe_perm {α : Type} (le : α → α → Bool) (a : α) (l : List α) :
    (insertLe le a l).Perm (a :: l) := by
  induction l with
  | nil => exact List.Perm.refl _
  | cons b bs ih =>
    simp only [insertLe]
    by_cases h : le a b = true
    · rw [if_pos h]
    · rw [if_neg h]
      exact (ih.cons b).trans (List.Perm.swap a b bs)

/-- The modelled stable sort permutes its input. -/
theorem sortLe_perm {α : Type} (le : α → α → Bool) (l : List α) :
    (sortLe le l).Perm l := by
  induction l with
  | nil => exact List.Perm.refl _
  | cons a as ih => exact (insertLe_perm le a (sortLe le as)).trans (ih.cons a)

/-- Membership after insertion. -/
theorem mem_insertLe {α : Type} (le : α → α → Bool) (a x : α) (l : List α) :
    x ∈ insertLe le a l ↔ x = a ∨ x ∈ l := by
  rw [(insertLe_perm le a l).mem_iff]
  simp

/-- Insertion into a sorted list keeps it sorted, for a total transitive
comparison. -/
theorem pairwise_insertLe {α : Type} (le : α → α → Bool)
    (htot : ∀ x y, le x y = true ∨ le y x = true)
    (htrans : ∀ {x y z}, le x y = true → le y z = true → le x z = true)
    (a : α) (l : List α) (hp : List.Pairwise (fun x y => le x y = true) l) :
    List.Pairwise (fun x y => le x y = true) (insertLe le a l) := by
  induction l with
  | nil => simp [insertLe]
  | cons b bs ih =>
    rw [List.pairwise_cons] at hp
    obtain ⟨hb, hbs⟩ := hp
    simp only [insertLe]
    by_cases h : le a b = true
    · rw [if_pos h, List.pairwise_cons]
      constructor
      · intro x hx
        rcases List.mem_cons.mp hx with hx | hx
        · rw [hx]
          exact h
        · exact htrans h (hb x hx)
      · rw [List.pairwise_cons]
        exact ⟨hb, hbs⟩
    · rw [if_neg h, List.pairwise_cons]
      constructor
      · intro x hx
        rcases (mem_insertLe le a x bs).mp hx with hx | hx
        · rw [hx]
          exact (htot a b).resolve_left h
        · exact hb x hx
      · exact ih hbs

/-- The modelled sort sorts, for a total transitive comparison. -/
theorem pairwise_sortLe {α : Type} (le : α → α → Bool)
    (htot : ∀ x y, le x y = true ∨ le y x = true)
    (htrans : ∀ {x y z}, le x y = true → le y z = true → le x z = true)
    (l : List α) :
    List.Pairwise (fun x y => le x y = true) (sortLe le l) := by
  induction l with
  | nil => simp [sortLe]
  | cons a as ih => exact pairwise_insertLe le htot htrans a (sortLe le as) ih

/-- The row a ledger entry yields always carries the entry's champion. -/
theorem rowFor_champion (c : String) (kv : String × Nat) :
    (rowFor c kv).champion = c := by
  cases h : alookup (build_maps).2 kv.1 with
  | none => simp [rowFor, h]
  | some info => simp [rowFor, h]

/-- The row a ledger entry yields carries the entry's old identifier (the
embedded map stores each entry under its own old_id). -/
theorem rowFor_old_id (c : String) (kv : String × Nat) :
    (rowFor c kv).old_id = kv.1 := by
  cases h : alookup (build_maps).2 kv.1 with
  | none => simp [rowFor, h]
  | some info =>
    have hall : ∀ p ∈ (build_maps).2, p.2.old_id = p.1 := by decide
    have h2 : info.old_id = kv.1 := hall _ (alookup_mem h)
    simp [rowFor, h, h2]

/-- The row a ledger entry yields carries the entry's count. -/
theorem rowFor_count (c : String) (kv : String × Nat) :
    (rowFor c kv).count = kv.2 := by
  cases h : alookup (build_maps).2 kv.1 with
  | none => simp [rowFor, h]
  | some info => simp [rowFor, h]

/-- The report order: champions case-insensitively non-decreasing, and rows of
one champion ordered by descending count then ascending identifier. -/
def rowLe (r1 r2 : ChangeSummary) : Prop :=
  champLe r1.champion r2.champion = true ∧
  (r1.champion = r2.champion →
    pairLe (r1.old_id, r1.count) (r2.old_id, r2.count) = true)

/-- Pointwise equal functions give equal flat maps. -/
theorem flatMap_congr_fun {α β : Type} (l : List α) (f g : α → List β)
    (h : ∀ x ∈ l, f x = g x) : l.flatMap f = l.flatMap g := by
  induction l with
  | nil => rfl
  | cons a as ih =>
    simp only [List.flatMap_cons]
    rw [h a (by simp), ih (fun x hx => h x (by simp [hx]))]

/-- A flat map of internally chained blocks with all cross-block pairs related
is chained. -/
theorem chain'_flatMap {α β : Type} {R : β → β → Prop} (f : α → List β) :
    ∀ (L : List α), (∀ c ∈ L, List.Chain' R (f c)) →
      List.Pairwise (fun c1 c2 => ∀ x ∈ f c1, ∀ y ∈ f c2, R x y) L →
      List.Chain' R (L.flatMap f) := by
  intro L
  induction L with
  | nil => intro _ _; simp
  | cons c cs ih =>
    intro hall hpw
    rw [List.pairwise_cons] at hpw
    obtain ⟨hc, hpw'⟩ := hpw
    rw [List.flatMap_cons, List.chain'_append]
    refine ⟨hall c (by simp), ih (fun d hd => hall d (by simp [hd])) hpw', ?_⟩
    intro x hx y hy
    have hx' : x ∈ f c := List.mem_of_mem_getLast? hx
    have hy' : y ∈ cs.flatMap f := List.mem_of_mem_head? hy
    rw [List.mem_flatMap] at hy'
    obtain ⟨d, hd, hyd⟩ := hy'
    exact hc d hd x hx' y hyd

/-- With duplicate-free champion keys, iterating the keys and looking each up
is the same as iterating the entries. -/
theorem flatMap_lookup_eq (changes : Ledger)
    (hnd : (changes.map (fun kv => kv.1)).Nodup) :
    (changes.map (fun kv => kv.1)).flatMap
        (fun c => ((alookup changes c).getD []).map (rowFor c)) =
      changes.flatMap (fun kv => kv.2.map (rowFor kv.1)) := by
  induction changes with
  | nil => rfl
  | cons kv rest ih =>
    obtain ⟨c0, inner⟩ := kv
    simp only [List.map_cons] at hnd
    rw [List.nodup_cons] at hnd
    obtain ⟨hc0, hnd'⟩ := hnd
    simp only [List.map_cons, List.flatMap_cons]
    congr 1
    · simp [alookup]
    · rw [flatMap_congr_fun _ _ (fun c => ((alookup rest c).getD []).map (rowFor c)) ?_,
        ih hnd']
      intro c hcm
      have hne : c0 ≠ c := fun he => hc0 (he ▸ hcm)
      simp [alookup, hne]

/-- C8: `flatten_changes` emits, as a multiset, exactly one row per
(grouping key, old identifier) entry of the ledger — each row built from the
embedded map's display data, or the bare-identifier fallback with the "?"
marker when the identifier is absent from the map; consecutive rows are
ordered by case-insensitive grouping key, and rows of one key by descending
count with ascending identifier as tie-break. -/
theorem C8_flatten_rows (changes : Ledger)
    (hnd : (changes.map (fun kv => kv.1)).Nodup) :
    (flatten_changes changes).Perm
      (changes.flatMap (fun kv => kv.2.map (rowFor kv.1))) ∧
    List.Chain' rowLe (flatten_changes changes) ∧
    (∀ (c : String) (inner : List (String × Nat)), (c, inner) ∈ changes →
      ∀ kv ∈ inner, alookup (build_maps).2 kv.1 = none →
      (⟨c, kv.1, "?", "ID " ++ kv.1, "ID " ++ kv.1, kv.2⟩ : ChangeSummary) ∈
        flatten_changes changes) := by
  have hperm : (flatten_changes changes).Perm
      (changes.flatMap (fun kv => kv.2.map (rowFor kv.1))) := by
    unfold flatten_changes
    have p1 : ((sortLe champLe (changes.map (fun kv => kv.1))).flatMap
        (fun champion => (sortLe pairLe ((alookup changes champion).getD [])).map
          (rowFor champion))).Perm
        ((changes.map (fun kv => kv.1)).flatMap
          (fun champion => (sortLe pairLe ((alookup changes champion).getD [])).map
            (rowFor champion))) :=
      List.Perm.flatMap_right _ (sortLe_perm champLe _)
    have p2 : ((changes.map (fun kv => kv.1)).flatMap
        (fun champion => (sortLe pairLe ((alookup changes champion).getD [])).map
          (rowFor champion))).Perm
        ((changes.map (fun kv => kv.1)).flatMap
          (fun champion => ((alookup changes champion).getD []).map (rowFor champion))) :=
      List.Perm.flatMap_left _ (fun c _ => (sortLe_perm pairLe _).map _)
    exact (p1.trans p2).trans (List.Perm.of_eq (flatMap_lookup_eq changes hnd))
  refine ⟨hperm, ?_, ?_⟩
  · unfold flatten_changes
    apply chain'_flatMap
    · intro c _
      apply List.Pairwise.chain'
      rw [List.pairwise_map]
      apply (pairwise_sortLe pairLe pairLe_or pairLe_trans _).imp
      intro kv1 kv2 hle
      refine ⟨?_, fun _ => ?_⟩
      · rw [rowFor_champion, rowFor_champion]
        exact champLe_refl c
      · rw [rowFor_old_id, rowFor_old_id, rowFor_count, rowFor_count,
          Prod.mk.eta, Prod.mk.eta]
        exact hle
    · have hsorted := pairwise_sortLe champLe champLe_or champLe_trans
        (changes.map (fun kv => kv.1))
      have hnd2 : (sortLe champLe (changes.map (fun kv => kv.1))).Nodup :=
        ((sortLe_perm champLe _).nodup_iff).mpr hnd
      apply (hsorted.and hnd2).imp
      intro c1 c2 hp x hx y hy
      rw [List.mem_map] at hx hy
      obtain ⟨kv1, _, hx⟩ := hx
      obtain ⟨kv2, _, hy⟩ := hy
      rw [← hx, ← hy]
      refine ⟨?_, fun he => ?_⟩
      · rw [rowFor_champion, rowFor_champion]
        exact hp.1
      · rw [rowFor_champion, rowFor_champion] at he
        exact absurd he hp.2
  · intro c inner hmem kv hkv hnone
    rw [hperm.mem_iff, List.mem_flatMap]
    refine ⟨(c, inner), hmem, ?_⟩
    rw [List.mem_map]
    exact ⟨kv, hkv, by simp [rowFor, hnone]⟩

/-- Witness for C8 on a concrete two-champion ledger. -/
theorem C8_flatten_rows_witness :
    (([("b", [("3003", 2), ("9999", 5)]), ("A", [("3002", 1)])] :
        Ledger).map (fun kv => kv.1)).Nodup ∧
    List.Chain' rowLe
      (flatten_changes [("b", [("3003", 2), ("9999", 5)]), ("A", [("3002", 1)])]) :=
  ⟨by decide,
   (C8_flatten_rows [("b", [("3003", 2), ("9999", 5)]), ("A", [("3002", 1)])]
      (by decide)).2.1⟩
